import Mathlib

/-!
Shallow embedding of `src/MereTable.h` (namespace `awkward`): a tree of
columns (`Column`), a table owning a forest of top-level columns
(`MereTable`), the bottom-up width computation (`Column::UpdateWidth`),
the flat-row value consumption (`Column::ConsumeValues`), and the
line-by-line text rendering (`MereTable::ToString`).

C++ `int` widths and row counters are modelled as `Nat`: every quantity
involved is non-negative in the source (widths start at `title.size()`,
`numRows` only increments), and all arithmetic stays far from overflow.
-/

namespace awkward

/-- A column node: `title`, cached `width`, subcolumns `columns`, and the
leaf `values` (one per row).  Mirrors `class Column` of the source. -/
inductive Column where
  | mk (title : String) (width : Nat) (columns : List Column) (values : List String)
deriving Repr

def Column.title : Column → String
  | .mk t _ _ _ => t

def Column.width : Column → Nat
  | .mk _ w _ _ => w

def Column.columns : Column → List Column
  | .mk _ _ cs _ => cs

def Column.values : Column → List String
  | .mk _ _ _ vs => vs

/-- Overwrite the cached width field (used by the parent's equalization
step `column.width = maxSubcolumnWidth`). -/
def Column.setWidth : Column → Nat → Column
  | .mk t _ cs vs, w => .mk t w cs vs

/-- A freshly constructed column: `Column(title)` initializes `width = 0`
and empty subcolumn / value vectors. -/
def newColumn (title : String) : Column :=
  .mk title 0 [] []

/-- `Column::AddColumn(title)`: append a new leaf subcolumn. -/
def Column.AddColumn (c : Column) (title : String) : Column :=
  match c with
  | .mk t w cs vs => .mk t w (cs ++ [newColumn title]) vs

mutual

/-- `Column::Clear()`: recursively clear subcolumn values, then clear own
values; titles, children and the cached width are untouched. -/
def Column.Clear : Column → Column
  | .mk t w cols _ => .mk t w (clearList cols) []

def clearList : List Column → List Column
  | [] => []
  | c :: cs => c.Clear :: clearList cs

end

mutual

/-- `Column::UpdateWidth()`.  Leaf: `width = max(title.size(), value sizes)`.
Group: update children, take `maxSubcolumnWidth` as the running
`max(column.width, maxSubcolumnWidth)` over the updated children, inflate
it to `width / n` (+1 on a nonzero remainder) when the title is wider than
`maxSubcolumnWidth * n`, set own width to `allSubcolumnsWidth + n - 1`, and
overwrite every child's width with the final `maxSubcolumnWidth`. -/
def Column.UpdateWidth : Column → Column
  | .mk t _ cols vals =>
    match cols with
    | [] => .mk t (vals.foldl (fun w v => max w v.length) t.length) [] vals
    | c :: cs =>
      let cols2 := updateWidthList (c :: cs)
      let n := (c :: cs).length
      let w0 := t.length
      let maxSub := cols2.foldl (fun a d => max d.width a) 0
      let maxSub2 := if maxSub * n < w0 then w0 / n + (if w0 % n = 0 then 0 else 1) else maxSub
      .mk t (maxSub2 * n + n - 1) (cols2.map (fun d => d.setWidth maxSub2)) vals

def updateWidthList : List Column → List Column
  | [] => []
  | c :: cs => c.UpdateWidth :: updateWidthList cs

end

mutual

/-- `Column::ConsumeValues(it)`: a group delegates to its children in
order; a leaf appends `*it` and advances the iterator.  In the source the
cursor is a raw iterator with no bounds check: dereferencing `*it` on an
exhausted input is an out-of-bounds read (undefined behavior).  The
embedding makes that case observable as `none`. -/
def Column.ConsumeValues : Column → List String → Option (Column × List String)
  | .mk t w cols vals, vs =>
    match cols with
    | [] =>
      match vs with
      | [] => none
      | v :: rest => some (.mk t w [] (vals ++ [v]), rest)
    | c :: cs =>
      match consumeValuesList (c :: cs) vs with
      | none => none
      | some (cols2, rest) => some (.mk t w cols2 vals, rest)

def consumeValuesList : List Column → List String → Option (List Column × List String)
  | [], vs => some ([], vs)
  | c :: cs, vs =>
    match c.ConsumeValues vs with
    | none => none
    | some (c2, rest) =>
      match consumeValuesList cs rest with
      | none => none
      | some (cs2, rest2) => some (c2 :: cs2, rest2)

end

/-- The table: ordered top-level columns plus the row counter. -/
structure MereTable where
  columns : List Column
  numRows : Nat
deriving Repr

/-- `MereTable()`: empty table. -/
def MereTable.empty : MereTable :=
  ⟨[], 0⟩

/-- `MereTable::AddColumns`: unconditionally copy every name to the end of
the top-level column vector (each string converts to a fresh leaf). -/
def MereTable.AddColumns (tb : MereTable) (names : List String) : MereTable :=
  { tb with columns := tb.columns ++ names.map newColumn }

/-- `MereTable::AddColumn`: `Find(columnName)`; only when the name is
absent at top level is a new leaf appended. -/
def MereTable.AddColumn (tb : MereTable) (columnName : String) : MereTable :=
  if tb.columns.any (fun c => c.title == columnName) then tb
  else { tb with columns := tb.columns ++ [newColumn columnName] }

/-- Helper for `MereTable::AddSubcolumn`: walk the top-level columns, add
the subcolumn to the first title match, or append a fresh column carrying
the subcolumn when no match exists. -/
def addSubcolumnIn : List Column → String → String → List Column
  | [], columnName, subName => [(newColumn columnName).AddColumn subName]
  | c :: cs, columnName, subName =>
    if c.title = columnName then c.AddColumn subName :: cs
    else c :: addSubcolumnIn cs columnName subName

/-- `MereTable::AddSubcolumn(columnName, subcolumnName)`. -/
def MereTable.AddSubcolumn (tb : MereTable) (columnName subName : String) : MereTable :=
  { tb with columns := addSubcolumnIn tb.columns columnName subName }

/-- `MereTable::AddValues`: run the cursor through every top-level column,
then increment `numRows`.  Leftover input is silently ignored (the source
never checks the count); an exhausted cursor is the `none` case. -/
def MereTable.AddValues (tb : MereTable) (vs : List String) : Option MereTable :=
  match consumeValuesList tb.columns vs with
  | none => none
  | some (cols2, _) => some ⟨cols2, tb.numRows + 1⟩

/-- `MereTable::Clear`: clear every column's values, reset `numRows` to 0,
and refresh the cached widths. -/
def MereTable.Clear (tb : MereTable) : MereTable :=
  ⟨updateWidthList (clearList tb.columns), 0⟩

/-- `MereTable::UpdateWidth` (private): refresh every top-level column. -/
def MereTable.UpdateWidth (tb : MereTable) : MereTable :=
  ⟨updateWidthList tb.columns, tb.numRows⟩

/-! ### Rendering (`MereTable::ToString`)

`print(fill, border, width, what)` is `os << setfill(fill) << setw(width)
<< what << border`: `setw` right-justifies, padding on the left up to
`width` and never truncating. -/

/-- Left-pad `s` with `fill` up to width `w` (no truncation), as
`setfill(fill) << setw(w) << s`. -/
def padTo (fill : Char) (w : Nat) (s : String) : String :=
  String.mk (List.replicate (w - s.length) fill) ++ s

/-- `print(fill, border, width, what)`. -/
def printCell (fill border : Char) (w : Nat) (s : String) : String :=
  padTo fill w s ++ String.mk [border]

/-- `printTitle(border)` applied to a column. -/
def titleCell (border : Char) (c : Column) : String :=
  printCell ' ' border c.width c.title

/-- `printFill(fill, border)` applied to a column: the padded `what` is
the fill character itself. -/
def fillCell (fill border : Char) (c : Column) : String :=
  printCell fill border c.width (String.mk [fill])

/-- `printColumnValue` at row `i`: `what.values[i]`.  An out-of-range
index is an out-of-bounds read in the source; the embedding reads `""`. -/
def valueCell (i : Nat) (c : Column) : String :=
  printCell ' ' '|' c.width (c.values.getD i "")

/-- `forEachSubcolumn(f)`: apply `f` to each direct subcolumn. -/
def subCells (f : Column → String) (c : Column) : String :=
  String.join (c.columns.map f)

/-- `makePrintEl(ifNotSubcolumns, ifHasSubcolumns)`. -/
def elCell (ifLeaf ifGroup : Column → String) (c : Column) : String :=
  if c.columns.isEmpty then ifLeaf c else ifGroup c

/-- `printLine(leftborder, print)` without its trailing newline. -/
def lineStr (cols : List Column) (lb : Char) (f : Column → String) : String :=
  String.mk [lb] ++ String.join (cols.map f)

/-- The rendered lines, in order: top border; group-title row; plain-title
row; subcolumn-title row; `=` border; one value row per table row; bottom
border.  Widths are assumed already refreshed. -/
def renderLines (cols : List Column) (numRows : Nat) : List String :=
  [ lineStr cols '+' (elCell (fillCell '-' '+') (fillCell '-' '+'))
  , lineStr cols '|' (elCell (fillCell ' ' '|') (titleCell '|'))
  , lineStr cols '|' (elCell (titleCell '|') (subCells (fillCell '-' '+')))
  , lineStr cols '|' (elCell (fillCell ' ' '|') (subCells (titleCell '|')))
  , lineStr cols '+' (elCell (fillCell '=' '+') (subCells (fillCell '=' '+'))) ]
  ++ (List.range numRows).map (fun i => lineStr cols '|' (elCell (valueCell i) (subCells (valueCell i))))
  ++ [ lineStr cols '+' (elCell (fillCell '-' '+') (subCells (fillCell '-' '+'))) ]

/-- `MereTable::ToString`: `UpdateWidth()` then emit every line, each
terminated by `'\n'`. -/
def MereTable.ToString (tb : MereTable) : String :=
  String.join ((renderLines (updateWidthList tb.columns) tb.numRows).map (fun l => l ++ "\n"))

/-- Repeatedly feed rows to `AddValues` (left to right). -/
def addMany : MereTable → List (List String) → Option MereTable
  | tb, [] => some tb
  | tb, vs :: rest =>
    match tb.AddValues vs with
    | none => none
    | some tb2 => addMany tb2 rest

/-! ### Observation functions and predicates used by the statements -/

mutual

/-- Number of leaf columns in the subtree (a group contributes its
children's leaves; a childless node is itself one leaf). -/
def countLeaves : Column → Nat
  | .mk _ _ cols _ =>
    match cols with
    | [] => 1
    | c :: cs => countLeavesList (c :: cs)

def countLeavesList : List Column → Nat
  | [] => 0
  | c :: cs => countLeaves c + countLeavesList cs

end

mutual

/-- The value sequences of the leaves, in depth-first left-to-right
order (one entry per leaf). -/
def leavesVals : Column → List (List String)
  | .mk _ _ cols vals =>
    match cols with
    | [] => [vals]
    | c :: cs => leavesValsList (c :: cs)

def leavesValsList : List Column → List (List String)
  | [] => []
  | c :: cs => leavesVals c ++ leavesValsList cs

end

mutual

/-- Erase every cached width in the tree (the parts of the state that
`UpdateWidth` actually reads). -/
def Column.strip : Column → Column
  | .mk t _ cols vals => .mk t 0 (stripList cols) vals

def stripList : List Column → List Column
  | [] => []
  | c :: cs => c.strip :: stripList cs

end

mutual

/-- Erase widths and values, keeping only the structural skeleton:
titles, children, ordering. -/
def Column.skel : Column → Column
  | .mk t _ cols _ => .mk t 0 (skelList cols) []

def skelList : List Column → List Column
  | [] => []
  | c :: cs => c.skel :: skelList cs

end

mutual

/-- Every value sequence in the tree is empty. -/
def noVals : Column → Bool
  | .mk _ _ cols vals => vals.isEmpty && noValsList cols

def noValsList : List Column → Bool
  | [] => true
  | c :: cs => noVals c && noValsList cs

end

/-- All columns of a sibling list carry the same cached width. -/
def sameWidths : List Column → Bool
  | [] => true
  | c :: cs => cs.all (fun d => d.width == c.width)

mutual

/-- At every group node of the tree, the direct children all carry the
same cached width. -/
def uniformKids : Column → Bool
  | .mk _ _ cols _ => sameWidths cols && uniformKidsList cols

def uniformKidsList : List Column → Bool
  | [] => true
  | c :: cs => uniformKids c && uniformKidsList cs

end

mutual

/-- Every leaf holds exactly `n` values and no group node holds values. -/
def rowsOK : Nat → Column → Bool
  | n, .mk _ _ cols vals =>
    match cols with
    | [] => vals.length == n
    | c :: cs => vals.isEmpty && rowsOKList n (c :: cs)

def rowsOKList : Nat → List Column → Bool
  | _, [] => true
  | n, c :: cs => rowsOK n c && rowsOKList n cs

end

mutual

/-- Every title in the tree is a nonempty string. -/
def titlesFilled : Column → Bool
  | .mk t _ cols _ => (t.length != 0) && titlesFilledList cols

def titlesFilledList : List Column → Bool
  | [] => true
  | c :: cs => titlesFilled c && titlesFilledList cs

end

/-- Pointwise comparison of value sequences: same count, each string no
longer than its counterpart. -/
def valsLenLE : List String → List String → Bool
  | [], [] => true
  | v :: vs, u :: us => decide (v.length ≤ u.length) && valsLenLE vs us
  | _, _ => false

mutual

/-- Same tree shape and value counts, and every title and value of the
left tree is no longer than its counterpart on the right (cached widths
are ignored: they are derived state). -/
def colLE : Column → Column → Bool
  | .mk t1 _ cols1 vals1, .mk t2 _ cols2 vals2 =>
    decide (t1.length ≤ t2.length) && valsLenLE vals1 vals2 && colListLE cols1 cols2

def colListLE : List Column → List Column → Bool
  | [], [] => true
  | c :: cs, d :: ds => colLE c d && colListLE cs ds
  | _, _ => false

end

mutual

/-- Node-by-node comparison of cached widths over two same-shaped trees. -/
def widthLE : Column → Column → Bool
  | .mk _ w1 cols1 _, .mk _ w2 cols2 _ =>
    decide (w1 ≤ w2) && widthLEList cols1 cols2

def widthLEList : List Column → List Column → Bool
  | [], [] => true
  | c :: cs, d :: ds => widthLE c d && widthLEList cs ds
  | _, _ => false

end

/-- Everything the renderer needs from an (already width-refreshed)
top-level column so that each of its cells, on every line, spans exactly
`width + 1` characters. -/
def RenderFit (c : Column) : Prop :=
  1 ≤ c.width ∧ c.title.length ≤ c.width ∧ (∀ v ∈ c.values, v.length ≤ c.width) ∧
  (c.columns ≠ [] → ∃ m, 1 ≤ m ∧
    (∀ d ∈ c.columns, d.width = m ∧ d.title.length ≤ m ∧ ∀ v ∈ d.values, v.length ≤ m) ∧
    c.width + 1 = (m + 1) * c.columns.length)

/-! ### The claimed width computation, stated from the specification's
words (for the refinement claim C1) -/

/-- Maximum length over a list of values (0 when there are none). -/
def maxValueLen (vals : List String) : Nat :=
  (vals.map String.length).foldr max 0

/-- Maximum of a list of naturals (0 when empty). -/
def maxOf (l : List Nat) : Nat :=
  l.foldr max 0

mutual

/-- Width computation as the specification words it: a leaf's width is
the maximum of its title length and the lengths of all its values; a
group's width is `maxChildWidth * n + (n - 1)`, where `maxChildWidth` is
the maximum of the children's recursively computed widths, first replaced
by `ceil(titleLength / n)` when the title length exceeds
`maxChildWidth * n`. -/
def specWidth : Column → Nat
  | .mk t _ cols vals =>
    match cols with
    | [] => max t.length (maxValueLen vals)
    | c :: cs =>
      let n := (c :: cs).length
      let mcw := maxOf (specWidthList (c :: cs))
      let mcw2 := if mcw * n < t.length then (t.length + n - 1) / n else mcw
      mcw2 * n + (n - 1)

def specWidthList : List Column → List Nat
  | [] => []
  | c :: cs => specWidth c :: specWidthList cs

end

/-! ## Basic lemmas -/

@[simp]
theorem Column.title_mk (t : String) (w : Nat) (cols : List Column) (vals : List String) :
    (Column.mk t w cols vals).title = t := rfl

@[simp]
theorem Column.width_mk (t : String) (w : Nat) (cols : List Column) (vals : List String) :
    (Column.mk t w cols vals).width = w := rfl

@[simp]
theorem Column.columns_mk (t : String) (w : Nat) (cols : List Column) (vals : List String) :
    (Column.mk t w cols vals).columns = cols := rfl

@[simp]
theorem Column.values_mk (t : String) (w : Nat) (cols : List Column) (vals : List String) :
    (Column.mk t w cols vals).values = vals := rfl

@[simp]
theorem Column.setWidth_mk (t : String) (w w' : Nat) (cols : List Column) (vals : List String) :
    (Column.mk t w cols vals).setWidth w' = Column.mk t w' cols vals := rfl

/-- Structural induction over the nested column tree. -/
theorem Column.ind (P : Column → Prop)
    (h : ∀ t w cols vals, (∀ c ∈ cols, P c) → P (Column.mk t w cols vals)) :
    ∀ c, P c
  | .mk t w cols vals => h t w cols vals (fun c hc => Column.ind P h c)
termination_by c => sizeOf c
decreasing_by
  have h1 := List.sizeOf_lt_of_mem hc
  simp only [Column.mk.sizeOf_spec]
  omega

theorem foldl_max_len (vals : List String) (a : Nat) :
    vals.foldl (fun w v => max w v.length) a = max a (maxValueLen vals) := by
  induction vals generalizing a with
  | nil => simp [maxValueLen]
  | cons v vs ih => simp [maxValueLen, List.foldl_cons, ih, Nat.max_assoc]

theorem foldl_max_width (cs : List Column) (a : Nat) :
    cs.foldl (fun x d => max d.width x) a = max a (maxOf (cs.map Column.width)) := by
  induction cs generalizing a with
  | nil => simp [maxOf]
  | cons c cs ih =>
    simp only [List.foldl_cons, ih, maxOf, List.map_cons, List.foldr_cons]
    omega

/-- The source's round-up (`/` plus remainder test) agrees with the
specification's `ceil(w / n)`. -/
theorem ceil_div_eq (w n : Nat) (hn : 0 < n) :
    w / n + (if w % n = 0 then 0 else 1) = (w + n - 1) / n := by
  have hw := Nat.div_add_mod w n
  have hr : w % n < n := Nat.mod_lt _ hn
  rcases Nat.eq_zero_or_pos (w % n) with h0 | hpos
  · have hweq : w + n - 1 = n * (w / n) + (n - 1) := by omega
    have h1 : (n - 1) / n = 0 := Nat.div_eq_of_lt (by omega)
    rw [h0, hweq, Nat.mul_add_div hn, h1]
    simp
  · have hweq : w + n - 1 = n * (w / n) + (w % n + n - 1) := by omega
    have h1 : (w % n + n - 1) / n = 1 :=
      Nat.div_eq_of_lt_le (show 1 * n ≤ w % n + n - 1 by omega) (by omega)
    have h2 : ¬ (w % n = 0) := by omega
    rw [hweq, Nat.mul_add_div hn, h1]
    simp [h2]

theorem map_width_updateWidthList (l : List Column)
    (h : ∀ x ∈ l, (x.UpdateWidth).width = specWidth x) :
    (updateWidthList l).map Column.width = specWidthList l := by
  induction l with
  | nil => simp [updateWidthList, specWidthList]
  | cons c cs ih =>
    simp only [updateWidthList, specWidthList, List.map_cons]
    rw [h c (by simp), ih (fun x hx => h x (by simp [hx]))]

/-- Core refinement: the width the code computes at a node is exactly the
width the specification describes. -/
theorem upd_width_eq_specWidth : ∀ c : Column, (c.UpdateWidth).width = specWidth c := by
  intro c
  induction c using Column.ind with
  | h t w cols vals ih =>
    cases cols with
    | nil => simp [Column.UpdateWidth, specWidth, foldl_max_len]
    | cons c cs =>
      simp only [Column.UpdateWidth, specWidth, Column.width_mk]
      rw [foldl_max_width, map_width_updateWidthList (c :: cs) ih]
      have hn : 0 < (c :: cs).length := by simp
      rw [ceil_div_eq t.length (c :: cs).length hn]
      simp

/-- C1: `Column::UpdateWidth` sets a leaf's width to the maximum of its
title length and its value lengths, and a group's width to
`maxChildWidth * n + (n - 1)` where `maxChildWidth` is the maximum of the
children's recursively computed widths, inflated to
`ceil(titleLength / n)` when the title length exceeds
`maxChildWidth * n`. -/
theorem claim_C1 : ∀ c : Column, (Column.UpdateWidth c).width = specWidth c :=
  fun c => upd_width_eq_specWidth c

/-! ## Normalization of the list-recursive helpers -/

@[simp]
theorem updateWidthList_eq_map (l : List Column) :
    updateWidthList l = l.map Column.UpdateWidth := by
  induction l with
  | nil => rfl
  | cons c cs ih => simp [updateWidthList, ih]

@[simp]
theorem clearList_eq_map (l : List Column) : clearList l = l.map Column.Clear := by
  induction l with
  | nil => rfl
  | cons c cs ih => simp [clearList, ih]

@[simp]
theorem stripList_eq_map (l : List Column) : stripList l = l.map Column.strip := by
  induction l with
  | nil => rfl
  | cons c cs ih => simp [stripList, ih]

@[simp]
theorem skelList_eq_map (l : List Column) : skelList l = l.map Column.skel := by
  induction l with
  | nil => rfl
  | cons c cs ih => simp [skelList, ih]

@[simp]
theorem specWidthList_eq_map (l : List Column) : specWidthList l = l.map specWidth := by
  induction l with
  | nil => rfl
  | cons c cs ih => simp [specWidthList, ih]

@[simp]
theorem noValsList_eq_all (l : List Column) : noValsList l = l.all noVals := by
  induction l with
  | nil => rfl
  | cons c cs ih => simp [noValsList, ih]

@[simp]
theorem uniformKidsList_eq_all (l : List Column) : uniformKidsList l = l.all uniformKids := by
  induction l with
  | nil => rfl
  | cons c cs ih => simp [uniformKidsList, ih]

@[simp]
theorem titlesFilledList_eq_all (l : List Column) : titlesFilledList l = l.all titlesFilled := by
  induction l with
  | nil => rfl
  | cons c cs ih => simp [titlesFilledList, ih]

@[simp]
theorem rowsOKList_eq_all (n : Nat) (l : List Column) : rowsOKList n l = l.all (rowsOK n) := by
  induction l with
  | nil => rfl
  | cons c cs ih => simp [rowsOKList, ih]

@[simp]
theorem countLeavesList_eq_sum (l : List Column) :
    countLeavesList l = (l.map countLeaves).sum := by
  induction l with
  | nil => rfl
  | cons c cs ih => simp [countLeavesList, ih]

@[simp]
theorem leavesValsList_eq_flatten (l : List Column) :
    leavesValsList l = (l.map leavesVals).flatten := by
  induction l with
  | nil => rfl
  | cons c cs ih => simp [leavesValsList, ih]

/-! ## Facts about `UpdateWidth` -/

theorem title_upd (c : Column) : (c.UpdateWidth).title = c.title := by
  cases c with
  | mk t w cols vals => cases cols <;> simp [Column.UpdateWidth]

theorem values_upd (c : Column) : (c.UpdateWidth).values = c.values := by
  cases c with
  | mk t w cols vals => cases cols <;> simp [Column.UpdateWidth]

/-- Rounding up and multiplying back never loses ground. -/
theorem ceil_mul_ge (t n : Nat) (hn : 0 < n) :
    t ≤ (t / n + (if t % n = 0 then 0 else 1)) * n := by
  have hw := Nat.div_add_mod t n
  have hr : t % n < n := Nat.mod_lt _ hn
  rcases Nat.eq_zero_or_pos (t % n) with h0 | hpos
  · rw [if_pos h0]
    have h3 : (t / n + 0) * n = n * (t / n) := by ring
    omega
  · have h2 : ¬ (t % n = 0) := by omega
    rw [if_neg h2]
    have h3 : (t / n + 1) * n = n * (t / n) + n := by ring
    omega

theorem mem_le_maxOf (l : List Nat) (x : Nat) (hx : x ∈ l) : x ≤ maxOf l := by
  induction l with
  | nil => cases hx
  | cons a as ih =>
    rcases List.mem_cons.mp hx with h | h
    · subst h
      simp only [maxOf, List.foldr_cons]
      exact Nat.le_max_left _ _
    · have hle := ih h
      simp only [maxOf, List.foldr_cons] at hle ⊢
      exact le_trans hle (Nat.le_max_right _ _)

/-- The title of a node always fits in its freshly computed width. -/
theorem title_le_upd_width (c : Column) : c.title.length ≤ (c.UpdateWidth).width := by
  cases c with
  | mk t w cols vals =>
    cases cols with
    | nil =>
      simp only [Column.UpdateWidth, Column.width_mk, Column.title_mk, foldl_max_len]
      omega
    | cons c cs =>
      simp only [Column.UpdateWidth, Column.width_mk, Column.title_mk]
      set n := (c :: cs).length with hn
      have hnpos : 0 < n := by simp [hn]
      set maxSub := (updateWidthList (c :: cs)).foldl (fun a d => max d.width a) 0 with hms
      by_cases hcond : maxSub * n < t.length
      · simp only [if_pos hcond]
        have := ceil_mul_ge t.length n hnpos
        omega
      · simp only [if_neg hcond]
        omega

/-- Each refreshed child's width is bounded by the group's final
`maxSubcolumnWidth`. -/
theorem child_width_le_maxSub (l : List Column) (a : Nat) (d : Column) (hd : d ∈ l) :
    d.width ≤ l.foldl (fun x e => max e.width x) a := by
  rw [foldl_max_width]
  have := mem_le_maxOf (l.map Column.width) d.width (List.mem_map_of_mem Column.width hd)
  omega

theorem sameWidths_map_setWidth (l : List Column) (m : Nat) :
    sameWidths (l.map (fun d => d.setWidth m)) = true := by
  cases l with
  | nil => rfl
  | cons c cs =>
    simp only [List.map_cons, sameWidths, List.all_map]
    apply List.all_eq_true.mpr
    intro d _
    cases d with
    | mk t w cols vals =>
      cases c with
      | mk t' w' cols' vals' => simp

theorem uniformKids_setWidth (c : Column) (m : Nat) :
    uniformKids (c.setWidth m) = uniformKids c := by
  cases c with
  | mk t w cols vals => simp [Column.setWidth, uniformKids]

/-- After `UpdateWidth`, every group node's direct children share one
width. -/
theorem uniformKids_upd : ∀ c : Column, uniformKids (c.UpdateWidth) = true := by
  intro c
  induction c using Column.ind with
  | h t w cols vals ih =>
    cases cols with
    | nil => simp [Column.UpdateWidth, uniformKids, sameWidths, uniformKidsList]
    | cons c cs =>
      simp only [Column.UpdateWidth, uniformKids]
      rw [Bool.and_eq_true]
      constructor
      · exact sameWidths_map_setWidth _ _
      · simp only [uniformKidsList_eq_all, List.all_map, updateWidthList_eq_map]
        apply List.all_eq_true.mpr
        intro d hd
        simp only [Function.comp_apply, uniformKids_setWidth]
        exact ih d hd

@[simp]
theorem setWidth_width (c : Column) (m : Nat) : (c.setWidth m).width = m := by
  cases c with
  | mk t w cols vals => rfl

@[simp]
theorem setWidth_title (c : Column) (m : Nat) : (c.setWidth m).title = c.title := by
  cases c with
  | mk t w cols vals => rfl

@[simp]
theorem setWidth_columns (c : Column) (m : Nat) : (c.setWidth m).columns = c.columns := by
  cases c with
  | mk t w cols vals => rfl

@[simp]
theorem setWidth_values (c : Column) (m : Nat) : (c.setWidth m).values = c.values := by
  cases c with
  | mk t w cols vals => rfl

/-- A refreshed group: there is a single `maxSubcolumnWidth` `m` such
that the group's width obeys the `m * n + (n - 1)` formula and every
child carries width `m` with its title fitting inside. -/
theorem group_upd_facts (c : Column) (h : c.columns ≠ []) : ∃ m : Nat,
    (c.UpdateWidth).columns.length = c.columns.length ∧
    (c.UpdateWidth).width = m * c.columns.length + (c.columns.length - 1) ∧
    (∀ d ∈ (c.UpdateWidth).columns, d.width = m ∧ d.title.length ≤ m) ∧
    (∀ x ∈ c.columns, (x.UpdateWidth).width ≤ m) ∧
    (c.UpdateWidth).columns = (updateWidthList c.columns).map (fun d => d.setWidth m) := by
  cases c with
  | mk t w cols vals =>
    cases cols with
    | nil => simp at h
    | cons c cs =>
      simp only [Column.UpdateWidth, Column.width_mk, Column.columns_mk]
      set n := (c :: cs).length with hn
      have hnpos : 0 < n := by simp [hn]
      set maxSub := (updateWidthList (c :: cs)).foldl (fun a d => max d.width a) 0 with hms
      set maxSub2 := if maxSub * n < t.length
        then t.length / n + (if t.length % n = 0 then 0 else 1) else maxSub with hms2
      have hms_le : maxSub ≤ maxSub2 := by
        rw [hms2]
        by_cases hcond : maxSub * n < t.length
        · rw [if_pos hcond]
          have hceil := ceil_mul_ge t.length n hnpos
          have : maxSub * n < (t.length / n + (if t.length % n = 0 then 0 else 1)) * n := by
            omega
          exact Nat.le_of_lt (Nat.lt_of_mul_lt_mul_right this)
        · rw [if_neg hcond]
      refine ⟨maxSub2, ?_, ?_, ?_, ?_, rfl⟩
      · simp [hn]
      · rfl
      · intro d hd
        rcases List.mem_map.mp hd with ⟨x, hx, hxd⟩
        subst hxd
        rw [setWidth_width, setWidth_title]
        refine ⟨rfl, ?_⟩
        have hxmem : x ∈ updateWidthList (c :: cs) := hx
        rw [updateWidthList_eq_map] at hx
        rcases List.mem_map.mp hx with ⟨y, _, hy⟩
        subst hy
        rw [title_upd]
        have htitle := title_le_upd_width y
        have hxw : (y.UpdateWidth).width ≤ maxSub := by
          rw [hms]
          exact child_width_le_maxSub _ 0 _ hxmem
        omega
      · intro x hx
        have hxmem : x.UpdateWidth ∈ updateWidthList (c :: cs) := by
          rw [updateWidthList_eq_map]
          exact List.mem_map_of_mem Column.UpdateWidth hx
        have hxw : (x.UpdateWidth).width ≤ maxSub := by
          rw [hms]
          exact child_width_le_maxSub _ 0 _ hxmem
        omega

/-! ## Cell and line lengths -/

@[simp]
theorem padTo_length (f : Char) (w : Nat) (s : String) :
    (padTo f w s).length = max w s.length := by
  simp only [padTo, String.length_append, String.length_mk, List.length_replicate]
  omega

@[simp]
theorem printCell_length (f b : Char) (w : Nat) (s : String) :
    (printCell f b w s).length = max w s.length + 1 := by
  simp [printCell, String.length_append, String.length_mk]

theorem titleCell_length (b : Char) (c : Column) :
    (titleCell b c).length = max c.width c.title.length + 1 := by
  simp [titleCell]

theorem fillCell_length (f b : Char) (c : Column) :
    (fillCell f b c).length = max c.width 1 + 1 := by
  simp [fillCell, String.length_mk]

theorem valueCell_length (i : Nat) (c : Column) :
    (valueCell i c).length = max c.width (c.values.getD i "").length + 1 := by
  simp [valueCell]

/-- C2: after width computation every direct child of a group carries one
common width (the group's final `maxChildWidth` `m`, tied to the group's
own width through `m * n + (n - 1)`), and in the rendered output the
title cells of the direct subcolumns of a refreshed group all span the
same number of characters. -/
theorem claim_C2 :
    (∀ c : Column, uniformKids (c.UpdateWidth) = true) ∧
    (∀ c : Column, c.columns ≠ [] → ∃ m : Nat,
      (∀ d ∈ (c.UpdateWidth).columns, d.width = m) ∧
      (c.UpdateWidth).width = m * c.columns.length + (c.columns.length - 1)) ∧
    (∀ c : Column, ∀ c1 ∈ (c.UpdateWidth).columns, ∀ c2 ∈ (c.UpdateWidth).columns,
      (titleCell '|' c1).length = (titleCell '|' c2).length) := by
  refine ⟨uniformKids_upd, ?_, ?_⟩
  · intro c h
    rcases group_upd_facts c h with ⟨m, _, hw, hkids, _, _⟩
    exact ⟨m, fun d hd => (hkids d hd).1, hw⟩
  · intro c c1 h1 c2 h2
    have hne : c.columns ≠ [] := by
      intro hnil
      cases c with
      | mk t w cols vals =>
        simp only [Column.columns_mk] at hnil
        subst hnil
        simp [Column.UpdateWidth] at h1
    rcases group_upd_facts c hne with ⟨m, _, _, hkids, _, _⟩
    rcases hkids c1 h1 with ⟨hw1, ht1⟩
    rcases hkids c2 h2 with ⟨hw2, ht2⟩
    rw [titleCell_length, titleCell_length, hw1, hw2]
    omega

/-- Witness for C2 at the group `G` with subcolumns `a`, `bb`. -/
theorem claim_C2_witness :
    (titleCell '|' (Column.mk "a" 2 [] [])).length
      = (titleCell '|' (Column.mk "bb" 2 [] [])).length := by
  have h1 : (Column.UpdateWidth (Column.mk "G" 0 [newColumn "a", newColumn "bb"] [])).columns
      = [Column.mk "a" 2 [] [], Column.mk "bb" 2 [] []] := rfl
  exact claim_C2.2.2 (Column.mk "G" 0 [newColumn "a", newColumn "bb"] [])
    (Column.mk "a" 2 [] []) (by rw [h1]; exact List.Mem.head _)
    (Column.mk "bb" 2 [] []) (by rw [h1]; exact List.Mem.tail _ (List.Mem.head _))

/-! ## Value consumption -/

theorem leavesVals_length : ∀ c : Column, (leavesVals c).length = countLeaves c := by
  intro c
  induction c using Column.ind with
  | h t w cols vals ih =>
    cases cols with
    | nil => simp [leavesVals, countLeaves]
    | cons c cs =>
      simp only [leavesVals, countLeaves]
      induction cs generalizing c with
      | nil =>
        simp only [leavesValsList, countLeavesList, List.length_append, List.length_nil]
        have := ih c (by simp)
        omega
      | cons d ds ihl =>
        simp only [leavesValsList, countLeavesList, List.length_append]
        have h1 := ih c (by simp)
        have h2 := ihl d (fun x hx => ih x (by
          rcases List.mem_cons.mp hx with h | h
          · simp [h]
          · simp [List.mem_cons.mpr (Or.inr (List.mem_cons.mpr (Or.inr h)))]))
        simp only [leavesValsList, countLeavesList, List.length_append] at h2
        omega

theorem leavesValsList_length (l : List Column) :
    (leavesValsList l).length = countLeavesList l := by
  induction l with
  | nil => rfl
  | cons c cs ih =>
    simp only [leavesValsList, countLeavesList, List.length_append, leavesVals_length]
    omega

/-- List half of the consumption specification, parameterized by the
statement for the members. -/
theorem consumeList_spec (l : List Column)
    (IH : ∀ x ∈ l, ∀ vs : List String, countLeaves x ≤ vs.length →
      ∃ c', x.ConsumeValues vs = some (c', vs.drop (countLeaves x)) ∧
        leavesVals c' = List.zipWith (fun a v => a ++ [v]) (leavesVals x) (vs.take (countLeaves x)) ∧
        countLeaves c' = countLeaves x ∧ c'.Clear = x.Clear) :
    ∀ vs : List String, countLeavesList l ≤ vs.length →
      ∃ l', consumeValuesList l vs = some (l', vs.drop (countLeavesList l)) ∧
        leavesValsList l'
          = List.zipWith (fun a v => a ++ [v]) (leavesValsList l) (vs.take (countLeavesList l)) ∧
        countLeavesList l' = countLeavesList l ∧ clearList l' = clearList l := by
  induction l with
  | nil =>
    intro vs _
    exact ⟨[], by simp [consumeValuesList, countLeavesList, leavesValsList, clearList]⟩
  | cons c cs ihl =>
    intro vs hlen
    have hsum : countLeavesList (c :: cs) = countLeaves c + countLeavesList cs := by
      simp [countLeavesList]
    have hc_le : countLeaves c ≤ vs.length := by omega
    rcases IH c (by simp) vs hc_le with ⟨c', hcons, hvals, hcount, hclear⟩
    have hrest_len : countLeavesList cs ≤ (vs.drop (countLeaves c)).length := by
      simp only [List.length_drop]
      omega
    rcases ihl (fun x hx => IH x (by simp [hx])) (vs.drop (countLeaves c)) hrest_len
      with ⟨cs', hconsL, hvalsL, hcountL, hclearL⟩
    refine ⟨c' :: cs', ?_, ?_, ?_, ?_⟩
    · simp only [consumeValuesList, hcons, hconsL, List.drop_drop]
      rw [hsum]
    · simp only [leavesValsList, hvals, hvalsL, hsum]
      have htk : (vs.take (countLeaves c)).length = countLeaves c := by
        simp only [List.length_take]
        omega
      rw [List.take_add, ← List.zipWith_append _ _ _ _ _ (by rw [leavesVals_length, htk])]
    · simp only [countLeavesList, hcount, hcountL]
    · simp only [clearList, hclear, hclearL]

/-- Consuming on a subtree with enough input: exactly `countLeaves` many
values are taken, each leaf (depth-first, left-to-right) appends the
corresponding one, and the leaf structure (also `Clear`'s view, which
forgets the appended values again) is unchanged. -/
theorem consume_spec : ∀ (c : Column) (vs : List String), countLeaves c ≤ vs.length →
    ∃ c', c.ConsumeValues vs = some (c', vs.drop (countLeaves c)) ∧
      leavesVals c' = List.zipWith (fun a v => a ++ [v]) (leavesVals c) (vs.take (countLeaves c)) ∧
      countLeaves c' = countLeaves c ∧ c'.Clear = c.Clear := by
  intro c
  induction c using Column.ind with
  | h t w cols vals ih =>
    intro vs hlen
    cases cols with
    | nil =>
      cases vs with
      | nil => simp [countLeaves] at hlen
      | cons v rest =>
        refine ⟨Column.mk t w [] (vals ++ [v]), ?_, ?_, ?_, ?_⟩
        · simp [Column.ConsumeValues, countLeaves]
        · simp [leavesVals, countLeaves]
        · simp [countLeaves]
        · simp [Column.Clear]
    | cons c cs =>
      have hlen2 : countLeavesList (c :: cs) ≤ vs.length := by
        simpa [countLeaves] using hlen
      rcases consumeList_spec (c :: cs) (fun x hx => ih x hx) vs hlen2
        with ⟨l', hcons, hvals, hcount, hclear⟩
      have hlen_l' : l'.length = (c :: cs).length := by
        have h := congrArg List.length hclear
        simpa using h
      obtain ⟨a, as, rfl⟩ := List.exists_cons_of_ne_nil
        (show l' ≠ [] by intro hnil; rw [hnil] at hlen_l'; simp at hlen_l')
      refine ⟨Column.mk t w (a :: as) vals, ?_, ?_, ?_, ?_⟩
      · simp only [Column.ConsumeValues, hcons, countLeaves]
      · simpa only [leavesVals, countLeaves] using hvals
      · simpa only [countLeaves] using hcount
      · simp only [Column.Clear, hclear]

/-- Single-row table specification: with exactly as many values as there
are leaves, `AddValues` succeeds, bumps `numRows`, appends each value to
its leaf in depth-first left-to-right order, and leaves everything else
(titles, children, widths — the view `Clear` keeps) as it was. -/
theorem AddValues_spec (tb : MereTable) (vs : List String)
    (h : vs.length = countLeavesList tb.columns) :
    ∃ tb', tb.AddValues vs = some tb' ∧ tb'.numRows = tb.numRows + 1 ∧
      countLeavesList tb'.columns = countLeavesList tb.columns ∧
      clearList tb'.columns = clearList tb.columns ∧
      leavesValsList tb'.columns
        = List.zipWith (fun a v => a ++ [v]) (leavesValsList tb.columns) vs := by
  rcases consumeList_spec tb.columns (fun x _ => consume_spec x) vs (by omega)
    with ⟨l', hcons, hvals, hcount, hclear⟩
  refine ⟨⟨l', tb.numRows + 1⟩, ?_, rfl, hcount, hclear, ?_⟩
  · simp only [MereTable.AddValues, hcons]
  · rw [hvals, ← h, List.take_length]

theorem getD_zipWith_append (L : List (List String)) (vs : List String) (j : Nat)
    (hj : j < L.length) (hj2 : j < vs.length) :
    (List.zipWith (fun a v => a ++ [v]) L vs).getD j []
      = L.getD j [] ++ [vs.getD j ""] := by
  induction L generalizing vs j with
  | nil => simp at hj
  | cons a L ih =>
    cases vs with
    | nil => simp at hj2
    | cons b vs =>
      cases j with
      | zero => simp
      | succ j =>
        simp only [List.zipWith_cons_cons, List.getD_cons_succ]
        exact ih vs j (by simpa using hj) (by simpa using hj2)

/-- Iterated row ingestion: each row of the right arity lands, leaf `j`
accumulating, in order, entry `j` of every supplied row. -/
theorem addMany_spec : ∀ (vss : List (List String)) (tb : MereTable),
    (∀ r ∈ vss, r.length = countLeavesList tb.columns) →
    ∃ tb', addMany tb vss = some tb' ∧
      tb'.numRows = tb.numRows + vss.length ∧
      countLeavesList tb'.columns = countLeavesList tb.columns ∧
      clearList tb'.columns = clearList tb.columns ∧
      ∀ j, j < countLeavesList tb.columns →
        (leavesValsList tb'.columns).getD j []
          = (leavesValsList tb.columns).getD j [] ++ vss.map (fun r => r.getD j "") := by
  intro vss
  induction vss with
  | nil =>
    intro tb _
    exact ⟨tb, rfl, by simp [addMany], rfl, rfl, by simp⟩
  | cons r rs ih =>
    intro tb hr
    rcases AddValues_spec tb r (hr r (by simp)) with ⟨tb1, hadd, hrows, hcount, hclear, hvals⟩
    rcases ih tb1 (fun x hx => by rw [hcount]; exact hr x (by simp [hx]))
      with ⟨tb', haddM, hrows', hcount', hclear', hvals'⟩
    refine ⟨tb', ?_, ?_, ?_, ?_, ?_⟩
    · simp only [addMany, hadd, haddM]
    · rw [hrows', hrows]
      simp [List.length_cons]
      omega
    · rw [hcount', hcount]
    · rw [hclear', hclear]
    · intro j hj
      have hj1 : j < countLeavesList tb1.columns := by rw [hcount]; exact hj
      rw [hvals' j hj1, hvals]
      rw [getD_zipWith_append _ _ _ (by rw [leavesValsList_length]; exact hj)
        (by rw [hr r (by simp)]; exact hj)]
      simp

/-- C3: with exactly one value per leaf, `AddValues` distributes the flat
sequence depth-first left-to-right (each leaf appends one value) and
increments `numRows`; iterating `k` well-formed rows on a table whose
leaves are empty leaves every leaf holding exactly the `k` supplied
entries for its position, in order. -/
theorem claim_C3 :
    (∀ (tb : MereTable) (vs : List String), vs.length = countLeavesList tb.columns →
      ∃ tb', tb.AddValues vs = some tb' ∧ tb'.numRows = tb.numRows + 1 ∧
        leavesValsList tb'.columns
          = List.zipWith (fun a v => a ++ [v]) (leavesValsList tb.columns) vs) ∧
    (∀ (tb : MereTable) (vss : List (List String)),
      (∀ l ∈ leavesValsList tb.columns, l = []) →
      (∀ r ∈ vss, r.length = countLeavesList tb.columns) →
      ∃ tb', addMany tb vss = some tb' ∧ tb'.numRows = tb.numRows + vss.length ∧
        ∀ j, j < countLeavesList tb.columns →
          (leavesValsList tb'.columns).getD j [] = vss.map (fun r => r.getD j "")) := by
  constructor
  · intro tb vs h
    rcases AddValues_spec tb vs h with ⟨tb', h1, h2, _, _, h5⟩
    exact ⟨tb', h1, h2, h5⟩
  · intro tb vss hempty hr
    rcases addMany_spec vss tb hr with ⟨tb', h1, h2, _, _, h5⟩
    refine ⟨tb', h1, h2, ?_⟩
    intro j hj
    rw [h5 j hj]
    have hmem : (leavesValsList tb.columns).getD j [] ∈ leavesValsList tb.columns := by
      rw [List.getD_eq_getElem _ _ (by rw [leavesValsList_length]; exact hj)]
      exact List.getElem_mem _
    rw [hempty _ hmem]
    simp

/-- Witness for C3 on the two-leaf table `{A, B}` with the row
`{x, y}`. -/
theorem claim_C3_witness :
    (["x", "y"] : List String).length
        = countLeavesList (MereTable.mk [newColumn "A", newColumn "B"] 0).columns ∧
    (∃ tb', (MereTable.mk [newColumn "A", newColumn "B"] 0).AddValues ["x", "y"] = some tb' ∧
      tb'.numRows = (MereTable.mk [newColumn "A", newColumn "B"] 0).numRows + 1 ∧
      leavesValsList tb'.columns
        = List.zipWith (fun a v => a ++ [v])
            (leavesValsList (MereTable.mk [newColumn "A", newColumn "B"] 0).columns)
            ["x", "y"]) :=
  ⟨by decide, claim_C3.1 (MereTable.mk [newColumn "A", newColumn "B"] 0) ["x", "y"] (by decide)⟩

/-! ## Concrete renderings -/

/-- Counterexample input for C4: the table `{A, B}` with one row
`{x, y}` renders as seven lines — a blank spacer row sits between the top
border and the title row, and another between the title row and the `=`
separator — not as the five claimed components alone. -/
theorem claim_C4_cex :
    (((MereTable.mk [] 0).AddColumns ["A", "B"]).AddValues ["x", "y"]).map MereTable.ToString
      ≠ some "+-+-+\n|A|B|\n+=+=+\n|x|y|\n+-+-+\n" := by
  decide

/-- C4 (amended): the rendering of the table `{A, B}` with one row
`{x, y}` consists of a top border, a blank spacer row, the title row with
`A` and `B`, a second blank spacer row, the `=` separator, the data row
with `x` and `y` each padded to width 1, and a bottom border. -/
theorem claim_C4 :
    (((MereTable.mk [] 0).AddColumns ["A", "B"]).AddValues ["x", "y"]).map MereTable.ToString
      = some "+-+-+\n| | |\n|A|B|\n| | |\n+=+=+\n|x|y|\n+-+-+\n" := by
  rfl

/-- C5: on the two-leaf table `{A, B}`, the source performs no argument
count validation.  One supplied value exhausts the cursor under-run (the
out-of-bounds read, observable as `none` in the embedding); three
supplied values are silently accepted with the extra one dropped.  No
`ArgumentCountMismatch` condition exists anywhere in the code. -/
theorem claim_C5 :
    ((MereTable.mk [] 0).AddColumns ["A", "B"]).AddValues ["x"] = none ∧
    ((MereTable.mk [] 0).AddColumns ["A", "B"]).AddValues ["x", "y", "z"]
      = some (MereTable.mk [Column.mk "A" 0 [] ["x"], Column.mk "B" 0 [] ["y"]] 1) := by
  exact ⟨rfl, rfl⟩

theorem join_cons (s : String) (l : List String) :
    String.join (s :: l) = s ++ String.join l := by
  apply String.ext
  simp [String.join_eq]

theorem join_append (a b : List String) :
    String.join (a ++ b) = String.join a ++ String.join b := by
  apply String.ext
  simp [String.join_eq]

/-- C8: rendering a table with zero columns yields the minimal
border-only frame (each line is a lone border character), and the width
pass over zero columns is the identity — in particular no division
happens: the only division in `Column::UpdateWidth` sits in the branch
where the subcolumn list is nonempty. -/
theorem claim_C8 : ∀ n : Nat,
    (MereTable.mk [] n).ToString
      = "+\n|\n|\n|\n+\n" ++ String.join (List.replicate n "|\n") ++ "+\n" ∧
    (MereTable.mk [] n).UpdateWidth = MereTable.mk [] n := by
  intro n
  constructor
  · simp only [MereTable.ToString, updateWidthList, renderLines]
    rw [List.map_append, List.map_append, join_append, join_append]
    have hmid : (List.range n).map
        ((fun l => l ++ "\n") ∘ fun i => lineStr [] '|' (elCell (valueCell i) (subCells (valueCell i))))
          = List.replicate n "|\n" := by
      have h1 : (List.range n).map
          ((fun l => l ++ "\n") ∘ fun i => lineStr [] '|' (elCell (valueCell i) (subCells (valueCell i))))
            = (List.range n).map (fun _ : Nat => "|\n") :=
        List.map_congr_left (fun a _ => rfl)
      rw [h1, List.map_const']
      simp
    rw [List.map_map, hmid]
    rfl
  · simp [MereTable.UpdateWidth, updateWidthList]

/-- C9: `AddColumn` with a name already present at top level is a no-op,
while `AddColumns` always appends every supplied name as a fresh
top-level leaf, duplicates included. -/
theorem claim_C9 :
    (∀ (tb : MereTable) (name : String),
      (∃ c ∈ tb.columns, c.title = name) → tb.AddColumn name = tb) ∧
    (∀ (tb : MereTable) (names : List String),
      (tb.AddColumns names).columns = tb.columns ++ names.map newColumn) := by
  constructor
  · intro tb name h
    rcases h with ⟨c, hc, htitle⟩
    have hany : tb.columns.any (fun c => c.title == name) = true :=
      List.any_eq_true.mpr ⟨c, hc, by simp [htitle]⟩
    simp [MereTable.AddColumn, hany]
  · intro tb names
    rfl

/-- Witness for C9: adding the already present name `A` changes
nothing. -/
theorem claim_C9_witness :
    (∃ c ∈ (MereTable.mk [newColumn "A"] 0).columns, c.title = "A") ∧
    (MereTable.mk [newColumn "A"] 0).AddColumn "A" = MereTable.mk [newColumn "A"] 0 :=
  ⟨⟨newColumn "A", List.Mem.head _, rfl⟩,
    claim_C9.1 (MereTable.mk [newColumn "A"] 0) "A" ⟨newColumn "A", List.Mem.head _, rfl⟩⟩

/-! ## `Clear` and idempotence of the width pass -/

theorem strip_setWidth (c : Column) (m : Nat) : (c.setWidth m).strip = c.strip := by
  cases c with
  | mk t w cols vals => rfl

theorem strip_upd : ∀ c : Column, (c.UpdateWidth).strip = c.strip := by
  intro c
  induction c using Column.ind with
  | h t w cols vals ih =>
    cases cols with
    | nil => simp [Column.UpdateWidth, Column.strip]
    | cons c cs =>
      simp only [Column.UpdateWidth, Column.strip, Column.mk.injEq, true_and, and_true,
        stripList_eq_map, updateWidthList_eq_map, List.map_map]
      apply List.map_congr_left
      intro x hx
      simp only [Function.comp_apply, strip_setWidth]
      exact ih x hx

theorem updList_congr_strip (l l' : List Column)
    (IH : ∀ x ∈ l, ∀ y : Column, x.strip = y.strip → x.UpdateWidth = y.UpdateWidth)
    (h : stripList l = stripList l') : updateWidthList l = updateWidthList l' := by
  induction l generalizing l' with
  | nil =>
    cases l' with
    | nil => rfl
    | cons d ds => simp [stripList] at h
  | cons c cs ih =>
    cases l' with
    | nil => simp [stripList] at h
    | cons d ds =>
      simp only [stripList_eq_map, List.map_cons, List.cons.injEq] at h
      simp only [updateWidthList, List.map_cons]
      rw [IH c (List.Mem.head _) d h.1,
        ih ds (fun x hx => IH x (List.mem_cons_of_mem c hx)) (by simp [h.2])]

/-- `UpdateWidth` reads nothing but titles, values, and the tree shape:
trees agreeing up to cached widths refresh identically. -/
theorem upd_congr_strip : ∀ c d : Column, c.strip = d.strip → c.UpdateWidth = d.UpdateWidth := by
  intro c
  induction c using Column.ind with
  | h t w cols vals ih =>
    intro d hd
    cases d with
    | mk t' w' cols' vals' =>
      simp only [Column.strip] at hd
      injection hd with ht hw hcols hvals
      subst ht hvals
      have hlist : updateWidthList cols = updateWidthList cols' :=
        updList_congr_strip cols cols' ih hcols
      have hlen : cols.length = cols'.length := by
        have h := congrArg List.length hcols
        simpa using h
      cases cols with
      | nil =>
        cases cols' with
        | nil => rfl
        | cons d ds => simp at hlen
      | cons c cs =>
        cases cols' with
        | nil => simp at hlen
        | cons d ds =>
          have hlen2 : cs.length = ds.length := by simpa using hlen
          simp only [Column.UpdateWidth, hlist, List.length_cons, hlen2]

theorem upd_idem (c : Column) : (c.UpdateWidth).UpdateWidth = c.UpdateWidth :=
  upd_congr_strip _ _ (strip_upd c)

theorem clear_of_noVals : ∀ c : Column, noVals c = true → c.Clear = c := by
  intro c
  induction c using Column.ind with
  | h t w cols vals ih =>
    intro h
    simp only [noVals, Bool.and_eq_true, List.isEmpty_eq_true, noValsList_eq_all,
      List.all_eq_true] at h
    obtain ⟨h1, h2⟩ := h
    subst h1
    simp only [Column.Clear, clearList_eq_map, Column.mk.injEq, true_and, and_true]
    have hmap : cols.map Column.Clear = cols.map id :=
      List.map_congr_left (fun x hx => by rw [ih x hx (h2 x hx)]; rfl)
    rw [hmap, List.map_id]

theorem noVals_clear : ∀ c : Column, noVals c.Clear = true := by
  intro c
  induction c using Column.ind with
  | h t w cols vals ih =>
    simp only [Column.Clear, noVals, List.isEmpty_nil, Bool.true_and, noValsList_eq_all,
      clearList_eq_map, List.all_eq_true, List.mem_map]
    rintro x ⟨y, hy, rfl⟩
    exact ih y hy

theorem skel_clear : ∀ c : Column, c.Clear.skel = c.skel := by
  intro c
  induction c using Column.ind with
  | h t w cols vals ih =>
    simp only [Column.Clear, Column.skel, Column.mk.injEq, true_and, and_true,
      skelList_eq_map, clearList_eq_map, List.map_map]
    apply List.map_congr_left
    intro x hx
    simp only [Function.comp_apply]
    exact ih x hx

theorem skel_setWidth (c : Column) (m : Nat) : (c.setWidth m).skel = c.skel := by
  cases c with
  | mk t w cols vals => rfl

theorem skel_upd : ∀ c : Column, (c.UpdateWidth).skel = c.skel := by
  intro c
  induction c using Column.ind with
  | h t w cols vals ih =>
    cases cols with
    | nil => simp [Column.UpdateWidth, Column.skel]
    | cons c cs =>
      simp only [Column.UpdateWidth, Column.skel, Column.mk.injEq, true_and, and_true,
        skelList_eq_map, updateWidthList_eq_map, List.map_map]
      apply List.map_congr_left
      intro x hx
      simp only [Function.comp_apply, skel_setWidth]
      exact ih x hx

theorem all_congr_mem {α : Type} (l : List α) (f g : α → Bool)
    (h : ∀ x ∈ l, f x = g x) : l.all f = l.all g := by
  induction l with
  | nil => rfl
  | cons a as ih =>
    simp only [List.all_cons, h a (List.Mem.head _),
      ih (fun x hx => h x (List.mem_cons_of_mem a hx))]

theorem noVals_strip : ∀ c : Column, noVals c.strip = noVals c := by
  intro c
  induction c using Column.ind with
  | h t w cols vals ih =>
    simp only [Column.strip, noVals, noValsList_eq_all, stripList_eq_map, List.all_map]
    rw [all_congr_mem cols (noVals ∘ Column.strip) noVals
      (fun x hx => by simp only [Function.comp_apply]; exact ih x hx)]

theorem noVals_upd (c : Column) : noVals (c.UpdateWidth) = noVals c := by
  rw [← noVals_strip c.UpdateWidth, strip_upd, noVals_strip]

theorem consumeList_clear (l : List Column)
    (IH : ∀ x ∈ l, ∀ (vs : List String) (c' : Column) (rest : List String),
      x.ConsumeValues vs = some (c', rest) → c'.Clear = x.Clear) :
    ∀ (vs : List String) (l' : List Column) (rest : List String),
      consumeValuesList l vs = some (l', rest) → clearList l' = clearList l := by
  induction l with
  | nil =>
    intro vs l' rest h
    simp only [consumeValuesList, Option.some.injEq, Prod.mk.injEq] at h
    rw [← h.1]
  | cons c cs ih =>
    intro vs l' rest h
    simp only [consumeValuesList] at h
    cases h1 : c.ConsumeValues vs with
    | none =>
      simp only [h1] at h
      exact Option.noConfusion h
    | some p =>
      obtain ⟨c2, rest1⟩ := p
      simp only [h1] at h
      cases h2 : consumeValuesList cs rest1 with
      | none =>
        simp only [h2] at h
        exact Option.noConfusion h
      | some q =>
        obtain ⟨cs2, rest2⟩ := q
        simp only [h2, Option.some.injEq, Prod.mk.injEq] at h
        rw [← h.1]
        simp only [clearList_eq_map, List.map_cons]
        have hc := IH c (List.Mem.head _) vs c2 rest1 h1
        have hcs := ih (fun x hx => IH x (List.mem_cons_of_mem c hx)) rest1 cs2 rest2 h2
        simp only [clearList_eq_map] at hc hcs
        rw [hc, hcs]

theorem consume_clear : ∀ (c : Column) (vs : List String) (c' : Column) (rest : List String),
    c.ConsumeValues vs = some (c', rest) → c'.Clear = c.Clear := by
  intro c
  induction c using Column.ind with
  | h t w cols vals ih =>
    intro vs c' rest h
    cases cols with
    | nil =>
      cases vs with
      | nil => simp [Column.ConsumeValues] at h
      | cons v vrest =>
        simp only [Column.ConsumeValues, Option.some.injEq, Prod.mk.injEq] at h
        rw [← h.1]
        simp [Column.Clear]
    | cons c cs =>
      simp only [Column.ConsumeValues] at h
      cases h1 : consumeValuesList (c :: cs) vs with
      | none =>
        simp only [h1] at h
        exact Option.noConfusion h
      | some p =>
        obtain ⟨l2, rest2⟩ := p
        simp only [h1, Option.some.injEq, Prod.mk.injEq] at h
        rw [← h.1]
        simp only [Column.Clear, Column.mk.injEq, true_and, and_true]
        exact consumeList_clear (c :: cs) ih vs l2 rest2 h1

theorem AddValues_clear (tb tb' : MereTable) (vs : List String)
    (h : tb.AddValues vs = some tb') : clearList tb'.columns = clearList tb.columns := by
  simp only [MereTable.AddValues] at h
  cases h1 : consumeValuesList tb.columns vs with
  | none =>
    simp only [h1] at h
    exact Option.noConfusion h
  | some p =>
    obtain ⟨l2, rest2⟩ := p
    simp only [h1, Option.some.injEq] at h
    rw [← h]
    exact consumeList_clear tb.columns (fun x _ => consume_clear x) vs l2 rest2 h1

theorem addMany_clear : ∀ (vss : List (List String)) (tb tb' : MereTable),
    addMany tb vss = some tb' → clearList tb'.columns = clearList tb.columns := by
  intro vss
  induction vss with
  | nil =>
    intro tb tb' h
    simp only [addMany, Option.some.injEq] at h
    rw [← h]
  | cons r rs ih =>
    intro tb tb' h
    simp only [addMany] at h
    cases h1 : tb.AddValues r with
    | none =>
      simp only [h1] at h
      exact Option.noConfusion h
    | some tb1 =>
      simp only [h1] at h
      rw [ih tb1 tb' h, AddValues_clear tb tb1 r h1]

/-- C7: `Clear` resets `numRows` to 0, empties every value sequence, and
preserves the structural skeleton; after any run of successful
`AddValues` calls on a table that started with no values and no rows,
clearing renders byte-identically to the starting table. -/
theorem claim_C7 :
    (∀ tb : MereTable, (tb.Clear).numRows = 0 ∧ noValsList (tb.Clear).columns = true ∧
      skelList (tb.Clear).columns = skelList tb.columns) ∧
    (∀ (tb0 : MereTable) (vss : List (List String)) (tb : MereTable),
      noValsList tb0.columns = true → tb0.numRows = 0 → addMany tb0 vss = some tb →
      (tb.Clear).ToString = tb0.ToString) := by
  constructor
  · intro tb
    refine ⟨rfl, ?_, ?_⟩
    · simp only [MereTable.Clear, noValsList_eq_all, updateWidthList_eq_map, clearList_eq_map,
        List.all_map, List.all_eq_true]
      intro x _
      simp only [Function.comp_apply]
      rw [noVals_upd]
      exact noVals_clear x
    · simp only [MereTable.Clear, skelList_eq_map, updateWidthList_eq_map, clearList_eq_map,
        List.map_map]
      apply List.map_congr_left
      intro x _
      simp only [Function.comp_apply, skel_upd, skel_clear]
  · intro tb0 vss tb hnv h0 hadd
    have hclear : clearList tb.columns = clearList tb0.columns := addMany_clear vss tb0 tb hadd
    have hid : clearList tb0.columns = tb0.columns := by
      simp only [clearList_eq_map]
      simp only [noValsList_eq_all, List.all_eq_true] at hnv
      rw [show tb0.columns.map Column.Clear = tb0.columns.map id from
        List.map_congr_left (fun x hx => clear_of_noVals x (hnv x hx)), List.map_id]
    simp only [MereTable.ToString, MereTable.Clear, hclear, hid, h0]
    have : updateWidthList (updateWidthList tb0.columns) = updateWidthList tb0.columns := by
      simp only [updateWidthList_eq_map, List.map_map]
      apply List.map_congr_left
      intro x _
      simp only [Function.comp_apply, upd_idem]
    rw [this]

/-- Witness for C7: the `{A, B}` table, one row in, cleared, renders as
it did empty. -/
theorem claim_C7_witness :
    ((MereTable.mk [Column.mk "A" 0 [] ["x"], Column.mk "B" 0 [] ["y"]] 1).Clear).ToString
      = (MereTable.mk [newColumn "A", newColumn "B"] 0).ToString :=
  claim_C7.2 (MereTable.mk [newColumn "A", newColumn "B"] 0) [["x", "y"]]
    (MereTable.mk [Column.mk "A" 0 [] ["x"], Column.mk "B" 0 [] ["y"]] 1)
    (by decide) rfl rfl

/-! ## Monotonicity of widths and line lengths -/

theorem length_join (l : List String) :
    (String.join l).length = (l.map String.length).sum := by
  induction l with
  | nil => rfl
  | cons s ls ih => simp [join_cons, String.length_append, ih]

theorem widthLE_width (u v : Column) (h : widthLE u v = true) : u.width ≤ v.width := by
  cases u with
  | mk t w cols vals =>
    cases v with
    | mk t' w' cols' vals' =>
      simp only [widthLE, Bool.and_eq_true, decide_eq_true_eq] at h
      exact h.1

theorem widthLE_children (u v : Column) (h : widthLE u v = true) :
    widthLEList u.columns v.columns = true := by
  cases u with
  | mk t w cols vals =>
    cases v with
    | mk t' w' cols' vals' =>
      simp only [widthLE, Bool.and_eq_true] at h
      exact h.2

theorem colLE_title (u v : Column) (h : colLE u v = true) : u.title.length ≤ v.title.length := by
  cases u with
  | mk t w cols vals =>
    cases v with
    | mk t' w' cols' vals' =>
      simp only [colLE, Bool.and_eq_true, decide_eq_true_eq] at h
      exact h.1.1

theorem colLE_vals (u v : Column) (h : colLE u v = true) : valsLenLE u.values v.values = true := by
  cases u with
  | mk t w cols vals =>
    cases v with
    | mk t' w' cols' vals' =>
      simp only [colLE, Bool.and_eq_true] at h
      exact h.1.2

theorem colLE_children (u v : Column) (h : colLE u v = true) :
    colListLE u.columns v.columns = true := by
  cases u with
  | mk t w cols vals =>
    cases v with
    | mk t' w' cols' vals' =>
      simp only [colLE, Bool.and_eq_true] at h
      exact h.2

theorem colListLE_length : ∀ l l' : List Column, colListLE l l' = true → l.length = l'.length := by
  intro l
  induction l with
  | nil =>
    intro l' h
    cases l' with
    | nil => rfl
    | cons d ds => simp [colListLE] at h
  | cons c cs ih =>
    intro l' h
    cases l' with
    | nil => simp [colListLE] at h
    | cons d ds =>
      simp only [colListLE, Bool.and_eq_true] at h
      simp [ih ds h.2]

theorem valsLenLE_length : ∀ a b : List String, valsLenLE a b = true → a.length = b.length := by
  intro a
  induction a with
  | nil =>
    intro b h
    cases b with
    | nil => rfl
    | cons x xs => simp [valsLenLE] at h
  | cons x xs ih =>
    intro b h
    cases b with
    | nil => simp [valsLenLE] at h
    | cons y ys =>
      simp only [valsLenLE, Bool.and_eq_true] at h
      simp [ih ys h.2]

theorem valsLenLE_getD : ∀ (a b : List String), valsLenLE a b = true →
    ∀ i : Nat, (a.getD i "").length ≤ (b.getD i "").length := by
  intro a
  induction a with
  | nil =>
    intro b h i
    cases b with
    | nil => simp
    | cons y ys => simp [valsLenLE] at h
  | cons x xs ih =>
    intro b h i
    cases b with
    | nil => simp [valsLenLE] at h
    | cons y ys =>
      simp only [valsLenLE, Bool.and_eq_true, decide_eq_true_eq] at h
      cases i with
      | zero => simpa using h.1
      | succ i => simpa using ih ys h.2 i

theorem valsLenLE_maxValueLen : ∀ a b : List String, valsLenLE a b = true →
    maxValueLen a ≤ maxValueLen b := by
  intro a
  induction a with
  | nil => intro b _; simp [maxValueLen]
  | cons x xs ih =>
    intro b h
    cases b with
    | nil => simp [valsLenLE] at h
    | cons y ys =>
      simp only [valsLenLE, Bool.and_eq_true, decide_eq_true_eq] at h
      have h2 := ih ys h.2
      simp only [maxValueLen, List.map_cons, List.foldr_cons] at h2 ⊢
      omega

theorem foldlmax_mono : ∀ (l l' : List Column), widthLEList l l' = true →
    ∀ a a' : Nat, a ≤ a' →
    l.foldl (fun x d => max d.width x) a ≤ l'.foldl (fun x d => max d.width x) a' := by
  intro l
  induction l with
  | nil =>
    intro l' h a a' ha
    cases l' with
    | nil => simpa using ha
    | cons d ds => simp [widthLEList] at h
  | cons c cs ih =>
    intro l' h a a' ha
    cases l' with
    | nil => simp [widthLEList] at h
    | cons d ds =>
      simp only [widthLEList, Bool.and_eq_true] at h
      simp only [List.foldl_cons]
      exact ih ds h.2 _ _ (by have := widthLE_width c d h.1; omega)

/-- The source's conditional inflation is the maximum of the children's
running maximum and the rounded-up title quotient. -/
theorem maxSub2_eq_max (m t n : Nat) (hn : 0 < n) :
    (if m * n < t then t / n + (if t % n = 0 then 0 else 1) else m)
      = max m ((t + n - 1) / n) := by
  rw [ceil_div_eq t n hn]
  by_cases hc : m * n < t
  · rw [if_pos hc]
    have hle : m + 1 ≤ (t + n - 1) / n := by
      rw [Nat.le_div_iff_mul_le hn]
      have hmul : (m + 1) * n = m * n + n := by ring
      omega
    omega
  · rw [if_neg hc]
    have hle : (t + n - 1) / n ≤ m := by
      by_cases ht : t = 0
      · subst ht
        have : (n - 1) / n = 0 := Nat.div_eq_of_lt (by omega)
        simp [this]
      · have hlt : (t + n - 1) / n < m + 1 := by
          rw [Nat.div_lt_iff_lt_mul hn]
          have hmul : (m + 1) * n = m * n + n := by ring
          omega
        omega
    omega

theorem widthLEList_setWidth : ∀ (l l' : List Column), widthLEList l l' = true →
    ∀ m m' : Nat, m ≤ m' →
    widthLEList (l.map (fun d => d.setWidth m)) (l'.map (fun d => d.setWidth m')) = true := by
  intro l
  induction l with
  | nil =>
    intro l' h m m' hm
    cases l' with
    | nil => rfl
    | cons d ds => simp [widthLEList] at h
  | cons c cs ih =>
    intro l' h m m' hm
    cases l' with
    | nil => simp [widthLEList] at h
    | cons d ds =>
      simp only [widthLEList, Bool.and_eq_true] at h
      simp only [List.map_cons, widthLEList, Bool.and_eq_true]
      refine ⟨?_, ih ds h.2 m m' hm⟩
      cases c with
      | mk tc wc colsc valsc =>
        cases d with
        | mk td wd colsd valsd =>
          simp only [Column.setWidth_mk, widthLE, Bool.and_eq_true, decide_eq_true_eq]
          refine ⟨hm, ?_⟩
          have h3 := h.1
          simp only [widthLE, Bool.and_eq_true] at h3
          exact h3.2

theorem widthLEList_upd_of (l l' : List Column)
    (IH : ∀ x ∈ l, ∀ y : Column, colLE x y = true →
      widthLE (x.UpdateWidth) (y.UpdateWidth) = true)
    (h : colListLE l l' = true) :
    widthLEList (updateWidthList l) (updateWidthList l') = true := by
  induction l generalizing l' with
  | nil =>
    cases l' with
    | nil => rfl
    | cons d ds => simp [colListLE] at h
  | cons c cs ih =>
    cases l' with
    | nil => simp [colListLE] at h
    | cons d ds =>
      simp only [colListLE, Bool.and_eq_true] at h
      simp only [updateWidthList, widthLEList, Bool.and_eq_true]
      exact ⟨IH c (List.Mem.head _) d h.1,
        ih ds (fun x hx => IH x (List.mem_cons_of_mem c hx)) h.2⟩

/-- Widths after a refresh are monotone in title lengths and value
lengths, node by node over the whole tree. -/
theorem widthLE_upd : ∀ c d : Column, colLE c d = true →
    widthLE (c.UpdateWidth) (d.UpdateWidth) = true := by
  intro c
  induction c using Column.ind with
  | h t w cols vals ih =>
    intro d hcd
    cases d with
    | mk t' w' cols' vals' =>
      have htle : t.length ≤ t'.length := colLE_title _ _ hcd
      have hvle : valsLenLE vals vals' = true := colLE_vals _ _ hcd
      have hcle : colListLE cols cols' = true := colLE_children _ _ hcd
      have hlen : cols.length = cols'.length := colListLE_length _ _ hcle
      cases cols with
      | nil =>
        cases cols' with
        | nil =>
          simp only [Column.UpdateWidth, widthLE, Bool.and_eq_true, decide_eq_true_eq,
            foldl_max_len]
          refine ⟨?_, rfl⟩
          have := valsLenLE_maxValueLen vals vals' hvle
          omega
        | cons d ds => simp at hlen
      | cons c cs =>
        cases cols' with
        | nil => simp at hlen
        | cons d ds =>
          have hwl : widthLEList (updateWidthList (c :: cs)) (updateWidthList (d :: ds)) = true :=
            widthLEList_upd_of (c :: cs) (d :: ds) ih hcle
          have hms : (updateWidthList (c :: cs)).foldl (fun x e => max e.width x) 0
              ≤ (updateWidthList (d :: ds)).foldl (fun x e => max e.width x) 0 :=
            foldlmax_mono _ _ hwl 0 0 (Nat.le_refl 0)
          simp only [Column.UpdateWidth, widthLE, Bool.and_eq_true, decide_eq_true_eq,
            List.length_cons]
          rw [show ((c :: cs).length = cs.length + 1) from rfl] at hlen
          rw [show ((d :: ds).length = ds.length + 1) from rfl] at hlen
          have hn : 0 < cs.length + 1 := by omega
          rw [maxSub2_eq_max _ _ _ hn, maxSub2_eq_max _ _ _ (by omega : 0 < ds.length + 1)]
          rw [← hlen]
          have hceil : (t.length + (cs.length + 1) - 1) / (cs.length + 1)
              ≤ (t'.length + (cs.length + 1) - 1) / (cs.length + 1) :=
            Nat.div_le_div_right (by omega)
          set m1 := max ((updateWidthList (c :: cs)).foldl (fun x e => max e.width x) 0)
            ((t.length + (cs.length + 1) - 1) / (cs.length + 1)) with hm1
          set m2 := max ((updateWidthList (d :: ds)).foldl (fun x e => max e.width x) 0)
            ((t'.length + (cs.length + 1) - 1) / (cs.length + 1)) with hm2
          have hm : m1 ≤ m2 := by omega
          constructor
          · have := Nat.mul_le_mul_right (cs.length + 1) hm
            omega
          · exact widthLEList_setWidth _ _ hwl m1 m2 hm

theorem colListLE_strip_of (l l' : List Column)
    (IH : ∀ x ∈ l, ∀ y : Column, colLE x.strip y.strip = colLE x y) :
    colListLE (stripList l) (stripList l') = colListLE l l' := by
  induction l generalizing l' with
  | nil => cases l' <;> simp [stripList, colListLE]
  | cons c cs ih =>
    cases l' with
    | nil => simp [stripList, colListLE]
    | cons d ds =>
      simp only [stripList, colListLE]
      rw [IH c (List.Mem.head _) d, ih ds (fun x hx => IH x (List.mem_cons_of_mem c hx))]

theorem colLE_strip : ∀ a b : Column, colLE a.strip b.strip = colLE a b := by
  intro a
  induction a using Column.ind with
  | h t w cols vals ih =>
    intro b
    cases b with
    | mk t' w' cols' vals' =>
      simp only [Column.strip, colLE]
      rw [colListLE_strip_of cols cols' ih]

theorem colLE_upd (c d : Column) : colLE (c.UpdateWidth) (d.UpdateWidth) = colLE c d := by
  rw [← colLE_strip c.UpdateWidth d.UpdateWidth, strip_upd, strip_upd, colLE_strip]

theorem colListLE_updList : ∀ l l' : List Column,
    colListLE (updateWidthList l) (updateWidthList l') = colListLE l l' := by
  intro l
  induction l with
  | nil => intro l'; cases l' <;> simp [updateWidthList, colListLE]
  | cons c cs ih =>
    intro l'
    cases l' with
    | nil => simp [updateWidthList, colListLE]
    | cons d ds => simp only [updateWidthList, colListLE, colLE_upd, ih ds]

theorem fillCell_mono (f b : Char) (u v : Column) (h : u.width ≤ v.width) :
    (fillCell f b u).length ≤ (fillCell f b v).length := by
  rw [fillCell_length, fillCell_length]
  omega

theorem titleCell_mono (b : Char) (u v : Column) (hw : u.width ≤ v.width)
    (ht : u.title.length ≤ v.title.length) :
    (titleCell b u).length ≤ (titleCell b v).length := by
  rw [titleCell_length, titleCell_length]
  omega

theorem valueCell_mono (i : Nat) (u v : Column) (hw : u.width ≤ v.width)
    (hv : valsLenLE u.values v.values = true) :
    (valueCell i u).length ≤ (valueCell i v).length := by
  rw [valueCell_length, valueCell_length]
  have := valsLenLE_getD _ _ hv i
  omega

/-- Pairwise cell-length monotonicity lifts to the joined cell row. -/
theorem joinmap_mono (f : Column → String)
    (Hf : ∀ x y : Column, colLE x y = true → widthLE x y = true →
      (f x).length ≤ (f y).length) :
    ∀ l l' : List Column, colListLE l l' = true → widthLEList l l' = true →
      (String.join (l.map f)).length ≤ (String.join (l'.map f)).length := by
  intro l
  induction l with
  | nil =>
    intro l' hc _
    cases l' with
    | nil => exact Nat.le_refl _
    | cons d ds => simp [colListLE] at hc
  | cons c cs ih =>
    intro l' hc hw
    cases l' with
    | nil => simp [colListLE] at hc
    | cons d ds =>
      simp only [colListLE, Bool.and_eq_true] at hc
      simp only [widthLEList, Bool.and_eq_true] at hw
      simp only [List.map_cons, join_cons, String.length_append]
      have h1 := Hf c d hc.1 hw.1
      have h2 := ih ds hc.2 hw.2
      omega

theorem isEmpty_of_colListLE (l l' : List Column) (h : colListLE l l' = true) :
    l.isEmpty = l'.isEmpty := by
  have := colListLE_length l l' h
  cases l <;> cases l' <;> simp_all

theorem elCell_mono (fL fG : Column → String)
    (HL : ∀ x y : Column, colLE x y = true → widthLE x y = true →
      (fL x).length ≤ (fL y).length)
    (HG : ∀ x y : Column, colLE x y = true → widthLE x y = true →
      (fG x).length ≤ (fG y).length)
    (u v : Column) (hc : colLE u v = true) (hw : widthLE u v = true) :
    (elCell fL fG u).length ≤ (elCell fL fG v).length := by
  have hemp : u.columns.isEmpty = v.columns.isEmpty :=
    isEmpty_of_colListLE _ _ (colLE_children _ _ hc)
  by_cases he : u.columns.isEmpty
  · simp only [elCell, he, ← hemp, if_pos]
    exact HL u v hc hw
  · simp only [elCell, he, ← hemp, if_neg, Bool.not_eq_true]
    exact HG u v hc hw

theorem subCells_prop (g : Column → String)
    (Hg : ∀ x y : Column, colLE x y = true → widthLE x y = true →
      (g x).length ≤ (g y).length) :
    ∀ x y : Column, colLE x y = true → widthLE x y = true →
      (subCells g x).length ≤ (subCells g y).length := by
  intro x y hc hw
  exact joinmap_mono g Hg _ _ (colLE_children _ _ hc) (widthLE_children _ _ hw)

theorem fillCell_prop (f b : Char) :
    ∀ x y : Column, colLE x y = true → widthLE x y = true →
      (fillCell f b x).length ≤ (fillCell f b y).length :=
  fun x y _ hw => fillCell_mono f b x y (widthLE_width _ _ hw)

theorem titleCell_prop (b : Char) :
    ∀ x y : Column, colLE x y = true → widthLE x y = true →
      (titleCell b x).length ≤ (titleCell b y).length :=
  fun x y hc hw => titleCell_mono b x y (widthLE_width _ _ hw) (colLE_title _ _ hc)

theorem valueCell_prop (i : Nat) :
    ∀ x y : Column, colLE x y = true → widthLE x y = true →
      (valueCell i x).length ≤ (valueCell i y).length :=
  fun x y hc hw => valueCell_mono i x y (widthLE_width _ _ hw) (colLE_vals _ _ hc)

theorem lineStr_mono (lb : Char) (f : Column → String)
    (Hf : ∀ x y : Column, colLE x y = true → widthLE x y = true →
      (f x).length ≤ (f y).length)
    (l l' : List Column) (hc : colListLE l l' = true) (hw : widthLEList l l' = true) :
    (lineStr l lb f).length ≤ (lineStr l' lb f).length := by
  simp only [lineStr, String.length_append]
  have := joinmap_mono f Hf l l' hc hw
  omega

theorem forall₂_map_of {α β : Type} (R : β → β → Prop) (l : List α) (f g : α → β)
    (h : ∀ a ∈ l, R (f a) (g a)) : List.Forall₂ R (l.map f) (l.map g) := by
  induction l with
  | nil => exact List.Forall₂.nil
  | cons a as ih =>
    exact List.Forall₂.cons (h a (List.Mem.head _))
      (ih (fun x hx => h x (List.mem_cons_of_mem a hx)))

theorem forall₂_append_of {α β : Type} (R : α → β → Prop) (l1 l3 : List α) (l2 l4 : List β)
    (h1 : List.Forall₂ R l1 l2) (h2 : List.Forall₂ R l3 l4) :
    List.Forall₂ R (l1 ++ l3) (l2 ++ l4) := by
  induction h1 with
  | nil => exact h2
  | cons ha _ ih => exact List.Forall₂.cons ha ih

/-- Every rendered line's length is monotone under pointwise widening. -/
theorem renderLines_mono (U U' : List Column) (n : Nat)
    (hc : colListLE U U' = true) (hw : widthLEList U U' = true) :
    List.Forall₂ (fun s s' : String => s.length ≤ s'.length)
      (renderLines U n) (renderLines U' n) := by
  have hline : ∀ (lb : Char) (f : Column → String),
      (∀ x y : Column, colLE x y = true → widthLE x y = true →
        (f x).length ≤ (f y).length) →
      (lineStr U lb f).length ≤ (lineStr U' lb f).length :=
    fun lb f Hf => lineStr_mono lb f Hf U U' hc hw
  refine forall₂_append_of _ _ _ _ _ (forall₂_append_of _ _ _ _ _ ?_ ?_) ?_
  · refine List.Forall₂.cons (hline _ _ ?_) (List.Forall₂.cons (hline _ _ ?_)
      (List.Forall₂.cons (hline _ _ ?_) (List.Forall₂.cons (hline _ _ ?_)
      (List.Forall₂.cons (hline _ _ ?_) List.Forall₂.nil))))
    · exact elCell_mono _ _ (fillCell_prop '-' '+') (fillCell_prop '-' '+')
    · exact elCell_mono _ _ (fillCell_prop ' ' '|') (titleCell_prop '|')
    · exact elCell_mono _ _ (titleCell_prop '|') (subCells_prop _ (fillCell_prop '-' '+'))
    · exact elCell_mono _ _ (fillCell_prop ' ' '|') (subCells_prop _ (titleCell_prop '|'))
    · exact elCell_mono _ _ (fillCell_prop '=' '+') (subCells_prop _ (fillCell_prop '=' '+'))
  · exact forall₂_map_of _ (List.range n) _ _
      (fun i _ => hline '|' _
        (elCell_mono _ _ (valueCell_prop i) (subCells_prop _ (valueCell_prop i))))
  · exact List.Forall₂.cons
      (hline '+' _ (elCell_mono _ _ (fillCell_prop '-' '+') (subCells_prop _ (fillCell_prop '-' '+'))))
      List.Forall₂.nil

/-- C6: pointwise widening of titles and values (same shapes and counts)
never shrinks any refreshed width anywhere in the forest, and never
shrinks any rendered line: corresponding lines of the two renderings
relate pointwise by length. -/
theorem claim_C6 : ∀ tb tb' : MereTable,
    colListLE tb.columns tb'.columns = true → tb.numRows = tb'.numRows →
    widthLEList (updateWidthList tb.columns) (updateWidthList tb'.columns) = true ∧
    List.Forall₂ (fun s s' : String => s.length ≤ s'.length)
      (renderLines (updateWidthList tb.columns) tb.numRows)
      (renderLines (updateWidthList tb'.columns) tb'.numRows) := by
  intro tb tb' hc hn
  have hw : widthLEList (updateWidthList tb.columns) (updateWidthList tb'.columns) = true :=
    widthLEList_upd_of tb.columns tb'.columns (fun x _ y hxy => widthLE_upd x y hxy) hc
  have hcU : colListLE (updateWidthList tb.columns) (updateWidthList tb'.columns) = true := by
    rw [colListLE_updList]
    exact hc
  refine ⟨hw, ?_⟩
  rw [hn]
  exact renderLines_mono _ _ tb'.numRows hcU hw

/-- Witness for C6: widening the value `x` to `xxx` in the `{A, B}`
table. -/
theorem claim_C6_witness :
    colListLE (MereTable.mk [Column.mk "A" 0 [] ["x"], Column.mk "B" 0 [] ["y"]] 1).columns
      (MereTable.mk [Column.mk "A" 0 [] ["xxx"], Column.mk "B" 0 [] ["y"]] 1).columns = true ∧
    (widthLEList
      (updateWidthList (MereTable.mk [Column.mk "A" 0 [] ["x"], Column.mk "B" 0 [] ["y"]] 1).columns)
      (updateWidthList (MereTable.mk [Column.mk "A" 0 [] ["xxx"], Column.mk "B" 0 [] ["y"]] 1).columns)
        = true ∧
    List.Forall₂ (fun s s' : String => s.length ≤ s'.length)
      (renderLines
        (updateWidthList (MereTable.mk [Column.mk "A" 0 [] ["x"], Column.mk "B" 0 [] ["y"]] 1).columns)
        (MereTable.mk [Column.mk "A" 0 [] ["x"], Column.mk "B" 0 [] ["y"]] 1).numRows)
      (renderLines
        (updateWidthList (MereTable.mk [Column.mk "A" 0 [] ["xxx"], Column.mk "B" 0 [] ["y"]] 1).columns)
        (MereTable.mk [Column.mk "A" 0 [] ["xxx"], Column.mk "B" 0 [] ["y"]] 1).numRows)) :=
  ⟨by decide,
    claim_C6 (MereTable.mk [Column.mk "A" 0 [] ["x"], Column.mk "B" 0 [] ["y"]] 1)
      (MereTable.mk [Column.mk "A" 0 [] ["xxx"], Column.mk "B" 0 [] ["y"]] 1)
      (by decide) rfl⟩

/-! ## Uniform line lengths -/

theorem upd_width_pos : ∀ c : Column, titlesFilled c = true → 1 ≤ (c.UpdateWidth).width := by
  intro c
  induction c using Column.ind with
  | h t w cols vals ih =>
    intro hT
    simp only [titlesFilled, Bool.and_eq_true, bne_iff_ne, ne_eq, titlesFilledList_eq_all,
      List.all_eq_true] at hT
    cases cols with
    | nil =>
      have := title_le_upd_width (Column.mk t w [] vals)
      simp only [Column.title_mk] at this
      omega
    | cons c cs =>
      rcases group_upd_facts (Column.mk t w (c :: cs) vals) (by simp)
        with ⟨m, _, hw, _, hbound, _⟩
      simp only [Column.columns_mk] at hw hbound
      have hm : 1 ≤ m := by
        have h1 := ih c (List.Mem.head _) (hT.2 c (List.Mem.head _))
        have h2 := hbound c (List.Mem.head _)
        omega
      have hmul : 1 * 1 ≤ m * (c :: cs).length := Nat.mul_le_mul hm (by simp)
      omega

theorem leaf_values_fit (t : String) (w : Nat) (vals : List String) :
    ∀ v ∈ vals, v.length ≤ ((Column.mk t w [] vals).UpdateWidth).width := by
  intro v hv
  simp only [Column.UpdateWidth, Column.width_mk, foldl_max_len]
  have h1 := mem_le_maxOf (vals.map String.length) v.length (List.mem_map_of_mem String.length hv)
  have h2 : maxOf (vals.map String.length) = maxValueLen vals := rfl
  omega

theorem getD_len_le (l : List String) (b : Nat) (h : ∀ v ∈ l, v.length ≤ b) :
    ∀ i : Nat, (l.getD i "").length ≤ b := by
  intro i
  induction l generalizing i with
  | nil => simp
  | cons v vs ih =>
    cases i with
    | zero => simpa using h v (List.Mem.head _)
    | succ i => simpa using ih (fun x hx => h x (List.mem_cons_of_mem v hx)) i

/-- With every title nonempty and no group carrying values, a refreshed
column satisfies everything the renderer needs for exact cell spans. -/
theorem upd_renderFit (c : Column) (n : Nat) (hT : titlesFilled c = true)
    (hR : rowsOK n c = true) : RenderFit (c.UpdateWidth) := by
  cases c with
  | mk t w cols vals =>
    have hT' := hT
    simp only [titlesFilled, Bool.and_eq_true, bne_iff_ne, ne_eq, titlesFilledList_eq_all,
      List.all_eq_true] at hT'
    refine ⟨upd_width_pos _ hT, ?_, ?_, ?_⟩
    · rw [title_upd]
      exact title_le_upd_width _
    · rw [values_upd]
      cases cols with
      | nil =>
        intro v hv
        exact leaf_values_fit t w vals v hv
      | cons c cs =>
        simp only [rowsOK, Bool.and_eq_true, List.isEmpty_eq_true] at hR
        simp only [Column.values_mk, hR.1]
        intro v hv
        cases hv
    · intro hne
      cases cols with
      | nil => simp [Column.UpdateWidth] at hne
      | cons c cs =>
        rcases group_upd_facts (Column.mk t w (c :: cs) vals) (by simp)
          with ⟨m, hlen, hw, hkids, hbound, hcols⟩
        simp only [Column.columns_mk] at hlen hw hbound hcols
        have hm : 1 ≤ m := by
          have h1 := upd_width_pos c (hT'.2 c (List.Mem.head _))
          have h2 := hbound c (List.Mem.head _)
          omega
        refine ⟨m, hm, ?_, ?_⟩
        · intro d hd
          refine ⟨(hkids d hd).1, (hkids d hd).2, ?_⟩
          rw [hcols] at hd
          rcases List.mem_map.mp hd with ⟨x, hx, hxd⟩
          subst hxd
          rw [setWidth_values]
          rw [updateWidthList_eq_map] at hx
          rcases List.mem_map.mp hx with ⟨y, hy, hyx⟩
          subst hyx
          rw [values_upd]
          simp only [rowsOK, Bool.and_eq_true, List.isEmpty_eq_true, rowsOKList_eq_all,
            List.all_eq_true] at hR
          cases y with
          | mk ty wy colsy valsy =>
            cases colsy with
            | nil =>
              intro v hv
              have hfit := leaf_values_fit ty wy valsy v hv
              have hb := hbound _ hy
              omega
            | cons d ds =>
              have hRy := hR.2 _ hy
              simp only [rowsOK, Bool.and_eq_true, List.isEmpty_eq_true] at hRy
              simp only [Column.values_mk, hRy.1]
              intro v hv
              cases hv
        · rw [hw, hlen]
          have hmul : (m + 1) * (c :: cs).length = m * (c :: cs).length + (c :: cs).length := by
            ring
          have hpos : 1 ≤ (c :: cs).length := by simp
          omega

theorem leafCells_len (d : Column) (hw : 1 ≤ d.width) (ht : d.title.length ≤ d.width)
    (hv : ∀ v ∈ d.values, v.length ≤ d.width) :
    (∀ f b : Char, (fillCell f b d).length = d.width + 1) ∧
    (∀ b : Char, (titleCell b d).length = d.width + 1) ∧
    (∀ i : Nat, (valueCell i d).length = d.width + 1) := by
  refine ⟨?_, ?_, ?_⟩
  · intro f b
    rw [fillCell_length]
    omega
  · intro b
    rw [titleCell_length]
    omega
  · intro i
    rw [valueCell_length]
    have := getD_len_le d.values d.width hv i
    omega

theorem subCells_len (c : Column) (m : Nat) (g : Column → String)
    (hg : ∀ d ∈ c.columns, (g d).length = m + 1)
    (hw : c.width + 1 = (m + 1) * c.columns.length) :
    (subCells g c).length = c.width + 1 := by
  simp only [subCells, length_join, List.map_map]
  have hconst : c.columns.map (String.length ∘ g) = c.columns.map (fun _ => m + 1) :=
    List.map_congr_left (fun d hd => hg d hd)
  rw [hconst, List.map_const', List.sum_replicate, smul_eq_mul, hw]
  ring

theorem elCell_len (c : Column) (hF : RenderFit c) :
    (∀ f b : Char, (elCell (fillCell f b) (fillCell f b) c).length = c.width + 1) ∧
    ((elCell (fillCell ' ' '|') (titleCell '|') c).length = c.width + 1) ∧
    (∀ f b : Char,
      (elCell (titleCell '|') (subCells (fillCell f b)) c).length = c.width + 1) ∧
    ((elCell (fillCell ' ' '|') (subCells (titleCell '|')) c).length = c.width + 1) ∧
    (∀ f b : Char,
      (elCell (fillCell f b) (subCells (fillCell f b)) c).length = c.width + 1) ∧
    (∀ i : Nat, (elCell (valueCell i) (subCells (valueCell i)) c).length = c.width + 1) := by
  obtain ⟨hw1, ht, hv, hgroup⟩ := hF
  by_cases hemp : c.columns.isEmpty
  · have hleaf := leafCells_len c hw1 ht hv
    simp only [elCell, hemp, if_pos]
    exact ⟨fun f b => hleaf.1 f b, hleaf.1 _ _, fun f b => hleaf.2.1 _, hleaf.1 _ _,
      fun f b => hleaf.1 f b, fun i => hleaf.2.2 i⟩
  · have hne : c.columns ≠ [] := by
      cases h : c.columns with
      | nil => rw [h] at hemp; simp at hemp
      | cons a as => simp
    rcases hgroup hne with ⟨m, hm, hkids, hwidth⟩
    have hsub : ∀ g : Column → String, (∀ d ∈ c.columns, (g d).length = m + 1) →
        (subCells g c).length = c.width + 1 :=
      fun g hg => subCells_len c m g hg hwidth
    have hkidfill : ∀ f b : Char, ∀ d ∈ c.columns, (fillCell f b d).length = m + 1 := by
      intro f b d hd
      rw [fillCell_length, (hkids d hd).1]
      omega
    have hkidtitle : ∀ d ∈ c.columns, (titleCell '|' d).length = m + 1 := by
      intro d hd
      rw [titleCell_length, (hkids d hd).1]
      have := (hkids d hd).2.1
      omega
    have hkidval : ∀ i : Nat, ∀ d ∈ c.columns, (valueCell i d).length = m + 1 := by
      intro i d hd
      rw [valueCell_length, (hkids d hd).1]
      have := getD_len_le d.values m (hkids d hd).2.2 i
      omega
    have hwle : c.title.length ≤ c.width := ht
    simp only [elCell, hemp, if_neg, Bool.not_eq_true]
    refine ⟨?_, ?_, ?_, ?_, ?_, ?_⟩
    · intro f b
      rw [fillCell_length]
      omega
    · rw [titleCell_length]
      omega
    · intro f b
      exact hsub _ (hkidfill f b)
    · exact hsub _ hkidtitle
    · intro f b
      exact hsub _ (hkidfill f b)
    · intro i
      exact hsub _ (hkidval i)

theorem lineStr_len (cols : List Column) (lb : Char) (f : Column → String)
    (hf : ∀ c ∈ cols, (f c).length = c.width + 1) :
    (lineStr cols lb f).length = 1 + (cols.map (fun c => c.width + 1)).sum := by
  simp only [lineStr, String.length_append, String.length_mk, List.length_cons,
    List.length_nil, length_join, List.map_map]
  have hconst : cols.map (String.length ∘ f) = cols.map (fun c => c.width + 1) :=
    List.map_congr_left (fun d hd => hf d hd)
  rw [hconst]

/-- Counterexample input for C10: a single leaf column with the empty
title and no rows satisfies the claim's hypotheses (each leaf holds
exactly `numRows = 0` values; no node holds both children and values),
yet its computed width is 0 and the rendered lines have lengths
`[3, 3, 2, 3, 3, 3]`, not all equal to `1 + (0 + 1) = 2`: `setw(0)` still
emits one character for the single-char border fills but none for the
empty title. -/
theorem claim_C10_cex :
    rowsOKList (MereTable.mk [newColumn ""] 0).numRows (MereTable.mk [newColumn ""] 0).columns
      = true ∧
    1 + ((updateWidthList (MereTable.mk [newColumn ""] 0).columns).map
      (fun c => c.width + 1)).sum = 2 ∧
    (renderLines (updateWidthList (MereTable.mk [newColumn ""] 0).columns)
      (MereTable.mk [newColumn ""] 0).numRows).map String.length = [3, 3, 2, 3, 3, 3] ∧
    ¬ (∀ l ∈ renderLines (updateWidthList (MereTable.mk [newColumn ""] 0).columns)
        (MereTable.mk [newColumn ""] 0).numRows,
        l.length = 1 + ((updateWidthList (MereTable.mk [newColumn ""] 0).columns).map
          (fun c => c.width + 1)).sum) := by
  refine ⟨rfl, rfl, by decide, by decide⟩

/-- C10 (amended): when every leaf holds exactly `numRows` values, no
node holds both children and values, and additionally every title is
nonempty, every rendered line — border, header, and data alike — has
length `1 + Σ (width + 1)` over the refreshed top-level columns. -/
theorem claim_C10 : ∀ tb : MereTable,
    rowsOKList tb.numRows tb.columns = true →
    titlesFilledList tb.columns = true →
    ∀ l ∈ renderLines (updateWidthList tb.columns) tb.numRows,
      l.length = 1 + ((updateWidthList tb.columns).map (fun c => c.width + 1)).sum := by
  intro tb hR hT l hl
  have hFit : ∀ c ∈ updateWidthList tb.columns, RenderFit c := by
    intro c hc
    rw [updateWidthList_eq_map] at hc
    rcases List.mem_map.mp hc with ⟨x, hx, hxc⟩
    subst hxc
    simp only [rowsOKList_eq_all, List.all_eq_true] at hR
    simp only [titlesFilledList_eq_all, List.all_eq_true] at hT
    exact upd_renderFit x tb.numRows (hT x hx) (hR x hx)
  have hlines : ∀ (lb : Char) (f : Column → String),
      (∀ c ∈ updateWidthList tb.columns, (f c).length = c.width + 1) →
      (lineStr (updateWidthList tb.columns) lb f).length
        = 1 + ((updateWidthList tb.columns).map (fun c => c.width + 1)).sum :=
    fun lb f hf => lineStr_len _ lb f hf
  simp only [renderLines, List.mem_append, List.mem_cons, List.mem_map, List.mem_range,
    List.mem_singleton, List.not_mem_nil, or_false] at hl
  rcases hl with ((h1 | h2 | h3 | h4 | h5) | ⟨i, _, hi⟩) | h7
  · subst h1
    exact hlines _ _ (fun c hc => (elCell_len c (hFit c hc)).1 '-' '+')
  · subst h2
    exact hlines _ _ (fun c hc => (elCell_len c (hFit c hc)).2.1)
  · subst h3
    exact hlines _ _ (fun c hc => (elCell_len c (hFit c hc)).2.2.1 '-' '+')
  · subst h4
    exact hlines _ _ (fun c hc => (elCell_len c (hFit c hc)).2.2.2.1)
  · subst h5
    exact hlines _ _ (fun c hc => (elCell_len c (hFit c hc)).2.2.2.2.1 '=' '+')
  · subst hi
    exact hlines _ _ (fun c hc => (elCell_len c (hFit c hc)).2.2.2.2.2 i)
  · subst h7
    exact hlines _ _ (fun c hc => (elCell_len c (hFit c hc)).2.2.2.2.1 '-' '+')

/-- Witness for C10 on the `{A, B}` table with one row: all seven lines
have length `1 + (1 + 1) + (1 + 1) = 5`. -/
theorem claim_C10_witness :
    rowsOKList (MereTable.mk [Column.mk "A" 0 [] ["x"], Column.mk "B" 0 [] ["y"]] 1).numRows
      (MereTable.mk [Column.mk "A" 0 [] ["x"], Column.mk "B" 0 [] ["y"]] 1).columns = true ∧
    titlesFilledList
      (MereTable.mk [Column.mk "A" 0 [] ["x"], Column.mk "B" 0 [] ["y"]] 1).columns = true ∧
    ∀ l ∈ renderLines
        (updateWidthList
          (MereTable.mk [Column.mk "A" 0 [] ["x"], Column.mk "B" 0 [] ["y"]] 1).columns)
        (MereTable.mk [Column.mk "A" 0 [] ["x"], Column.mk "B" 0 [] ["y"]] 1).numRows,
      l.length = 1 + ((updateWidthList
        (MereTable.mk [Column.mk "A" 0 [] ["x"], Column.mk "B" 0 [] ["y"]] 1).columns).map
          (fun c => c.width + 1)).sum :=
  ⟨by decide, by decide,
    claim_C10 (MereTable.mk [Column.mk "A" 0 [] ["x"], Column.mk "B" 0 [] ["y"]] 1)
      (by decide) (by decide)⟩

end awkward
